import Mathlib

/-!
Shallow embedding of the stegPNG library (src/stegpng/png.py, chunks.py,
utils.py).  Bytes are modelled as `Nat` values; byte strings as `List Nat`.
Overflow is explicit (`% 256`, `% 2 ^ 32`); Python's nonnegative `%` on
possibly-negative intermediate values is modelled with `Int.emod`; fallible
operations return `Except PngError`.
-/

set_option maxRecDepth 4000

namespace StegPng

/-- Error taxonomy, mirroring the exceptions raised in the source
(`pngexceptions.py` plus the builtin exceptions used in `png.py`). -/
inductive PngError where
  | missingSignature
  | invalidPngStructure
  | invalidChunkStructure
  | unsupportedChunk
  | unsupportedFilter (code : Nat)
  | editReadOnly
  | keyError
  | indexError
  | valueError
  | notImplemented
  deriving DecidableEq, Repr

/-- `unpack('>I', l[:4])` / `unpack('!I', l[:4])`: big-endian 32-bit read of
the first four bytes.  Callers in the source guard the length. -/
def readU32BE : List Nat → Nat
  | b0 :: b1 :: b2 :: b3 :: _ => ((b0 * 256 + b1) * 256 + b2) * 256 + b3
  | _ => 0

/-- `pack('>I', n)`: big-endian 32-bit encoding (values in the source fit). -/
def packU32 (n : Nat) : List Nat :=
  [n / 2 ^ 24 % 256, n / 2 ^ 16 % 256, n / 2 ^ 8 % 256, n % 256]

/-- The 8-byte PNG signature `b'\x89PNG\r\n\x1a\n'` (`_PNG_SIGNATURE`). -/
def pngSignature : List Nat := [0x89, 0x50, 0x4E, 0x47, 0x0D, 0x0A, 0x1A, 0x0A]

/-- `read_png_signature(data)`: `data[0:8] == _PNG_SIGNATURE`. -/
def readPngSignature (data : List Nat) : Bool :=
  data.take 8 = pngSignature

/-- One round of the bitwise (reflected) CRC-32 used by `zlib.crc32`. -/
def crc32round (c : Nat) : Nat :=
  if c % 2 = 1 then (c / 2) ^^^ 0xEDB88320 else c / 2

/-- Feed one byte into the CRC-32 state. -/
def crc32byte (c b : Nat) : Nat :=
  crc32round (crc32round (crc32round (crc32round
    (crc32round (crc32round (crc32round (crc32round (c ^^^ b))))))))

/-- `zlib.crc32(data)`: IEEE CRC-32 of a byte string. -/
def crc32 (data : List Nat) : Nat :=
  (data.foldl crc32byte 0xFFFFFFFF) ^^^ 0xFFFFFFFF

/-- Python `list.insert(i, x)` for a nonnegative index `i` (clamps at the
end of the list). -/
def pyInsert (i : Nat) (x : α) (l : List α) : List α :=
  l.take i ++ [x] ++ l.drop i

/-- Python sequence indexing `l[i]` for `int` indices: nonnegative indices
from the front, negative indices from the back, `none` for an `IndexError`. -/
def pyIndex (l : List α) (i : Int) : Option α :=
  if 0 ≤ i then l.get? i.toNat
  else if 0 ≤ (l.length : Int) + i then l.get? ((l.length : Int) + i).toNat
  else none

/-- `paeth(a, b, c)` from `utils.py`: the PNG Paeth predictor.  Inputs are
Python ints, so intermediate values may be negative. -/
def paeth (a b c : Int) : Int :=
  let p := a + b - c
  let pa := (p - a).natAbs
  let pb := (p - b).natAbs
  let pc := (p - c).natAbs
  if pa ≤ pb ∧ pa ≤ pc then a
  else if pb ≤ pc then b
  else c

/-!  ### `PngChunk` (png.py, class `PngChunk`)

A chunk owns its raw bytes `[length:4 BE | type:4 | data:length | crc:4 BE]`
plus the `edit`, `auto_update` and `__dirty` flags.  Mutators raise on
`edit = False`, which is modelled by returning `Except`. -/

structure PngChunk where
  bytes : List Nat
  edit : Bool
  autoUpdate : Bool
  dirty : Bool
  deriving DecidableEq, Repr

namespace PngChunk

/-- `PngChunk.__init__`: store the bytes, truncated to `length + 12` where
`length` is read from the first four bytes. -/
def ofBytes (chunkbytes : List Nat) (edit : Bool := true)
    (autoUpdate : Bool := true) : PngChunk :=
  { bytes := chunkbytes.take (readU32BE chunkbytes + 12)
    edit := edit
    autoUpdate := autoUpdate
    dirty := false }

/-- `PngChunk.length`: the four-byte big-endian length header. -/
def length (c : PngChunk) : Nat := readU32BE c.bytes

/-- The raw type field `self.__bytes[4:8]` (the source decodes it as ASCII;
we keep the byte values, which is a bijection for ASCII data). -/
def typeBytes (c : PngChunk) : List Nat := (c.bytes.drop 4).take 4

/-- `PngChunk.data`: the payload slice `self.bytes[8:-4]`. -/
def data (c : PngChunk) : List Nat := (c.bytes.drop 8).take (c.bytes.length - 12)

/-- `PngChunk.crc` (getter): `unpack('!I', self.__bytes[-4:])`. -/
def crc (c : PngChunk) : Nat := readU32BE (c.bytes.drop (c.bytes.length - 4))

/-- `PngChunk.compute_crc`: `zlib.crc32(self.__bytes[4:-4])`. -/
def computeCrc (c : PngChunk) : Nat :=
  crc32 ((c.bytes.drop 4).take (c.bytes.length - 8))

/-- The byte rewrite performed by the `crc` setter:
`self.__bytes = self.bytes[:-4] + pack('!I', value)`. -/
def writeCrcBytes (b : List Nat) (value : Nat) : List Nat :=
  b.take (b.length - 4) ++ packU32 value

/-- `PngChunk.crc` (setter): checks `edit` through `__changing` (with
`update_crc=False`) and overwrites the last four bytes. -/
def setCrc (c : PngChunk) (value : Nat) : Except PngError PngChunk :=
  if !c.edit then .error .editReadOnly
  else .ok { c with bytes := writeCrcBytes c.bytes value, dirty := true }

/-- `PngChunk.update_crc`: `self.crc = self.compute_crc()`. -/
def updateCrc (c : PngChunk) : Except PngError PngChunk :=
  c.setCrc c.computeCrc

/-- `PngChunk.__changing(update_crc)`: raises on a read-only chunk, otherwise
optionally recomputes the CRC and marks the chunk dirty. -/
def changing (c : PngChunk) (updateCrcFlag : Bool) : Except PngError PngChunk :=
  if !c.edit then .error .editReadOnly
  else if updateCrcFlag then
    (c.updateCrc).map fun c' => { c' with dirty := true }
  else .ok { c with dirty := true }

/-- `PngChunk.type` (setter): `__changing(update_crc=False)`, length check,
rewrite of bytes 4..8, then `__changing(self.auto_update)`. -/
def setType (c : PngChunk) (value : List Nat) : Except PngError PngChunk := do
  let c ← c.changing false
  if value.length ≠ 4 then .error .valueError
  else
    let c := { c with bytes := c.bytes.take 4 ++ value ++ c.bytes.drop 8 }
    c.changing c.autoUpdate

/-- `PngChunk.__update_length`: recompute the four-byte length header from
the actual byte count (raises if the chunk is shorter than 12 bytes). -/
def updateLength (c : PngChunk) : Except PngError PngChunk :=
  if c.bytes.length < 12 then .error .invalidPngStructure
  else .ok { c with bytes := packU32 (c.bytes.length - 12) ++ c.bytes.drop 4 }

/-- `PngChunk.data` (setter): `__changing(update_crc=False)`, splice the new
payload between header and CRC, `__update_length`, then
`__changing(self.auto_update)`. -/
def setData (c : PngChunk) (d : List Nat) : Except PngError PngChunk := do
  let c ← c.changing false
  let c := { c with bytes := c.bytes.take 8 ++ d ++ c.bytes.drop (c.bytes.length - 4) }
  let c ← c.updateLength
  c.changing c.autoUpdate

/-- `PngChunk.check_crc`: `self.compute_crc() == self.crc`. -/
def checkCrc (c : PngChunk) : Bool := c.computeCrc = c.crc

/-- `PngChunk.iscritical`: `(self.__bytes[4] & 0b000010000) >> 4 == 0`.
Note the mask in the source is `0b000010000 = 0x10`, not `0x20`. -/
def iscritical (c : PngChunk) : Bool := (c.bytes.getD 4 0 &&& 0b000010000) >>> 4 = 0

/-- `PngChunk.isancillary`: `(self.__bytes[4] & 0b000010000) >> 4 == 1`. -/
def isancillary (c : PngChunk) : Bool := (c.bytes.getD 4 0 &&& 0b000010000) >>> 4 = 1

end PngChunk

/-- The byte values of the ASCII type `'IEND'`. -/
def iendType : List Nat := [73, 69, 78, 68]

/-- The byte values of the ASCII type `'IDAT'`. -/
def idatType : List Nat := [73, 68, 65, 84]

/-- The byte values of the ASCII type `'IHDR'`. -/
def ihdrType : List Nat := [73, 72, 68, 82]

/-- `chunk.type` succeeds iff the four type bytes decode as ASCII. -/
def chunkTypeAscii (c : PngChunk) : Bool := c.typeBytes.all (· < 128)

/-- `create_empty_chunk(t)` for a registered implementation whose
`empty_data` is `emptyData`: build a chunk from twelve zero bytes, assign
the type (which auto-updates the CRC), then `_set_empty_data()`. -/
def createEmptyChunk (t emptyData : List Nat) : Except PngError PngChunk := do
  let c := PngChunk.ofBytes (List.replicate 12 0)
  let c ← c.setType t
  c.setData emptyData

/-- `create_empty_chunk('IDAT')`: `ChunkIDAT` declares no `empty_data`, so
the implementation default `b''` is used. -/
def createEmptyIdat : Except PngError PngChunk := createEmptyChunk idatType []

/-!  ### `Png` (png.py, class `Png`)

A parsed container: chunk list, trailer bytes (`__file_end`) and the `edit`
flag.  The lazy parse of the source is modelled eagerly; every observable
operation on `Png` first forces the parse anyway. -/

structure Png where
  chunks : List PngChunk
  fileEnd : List Nat
  edit : Bool
  deriving DecidableEq, Repr

/-- `Png.__read_chunks`: repeatedly read a four-byte big-endian length `L`,
cut a chunk from the next `L + 12` bytes, and stop after an `'IEND'` chunk;
whatever remains is `__file_end`.  A read past the end of the data
(`unpack` on fewer than four bytes) and a non-ASCII type byte both raise. -/
def readChunksLoop (data : List Nat) : Except PngError (List PngChunk × List Nat) :=
  if _hempty : data.isEmpty then .ok ([], [])
  else if data.length < 4 then .error .invalidPngStructure
  else
    let len := readU32BE data
    let chunk := PngChunk.ofBytes (data.take (len + 12))
    if ¬ chunkTypeAscii chunk then .error .invalidPngStructure
    else if chunk.typeBytes = iendType then .ok ([chunk], data.drop (len + 12))
    else
      match readChunksLoop (data.drop (len + 12)) with
      | .ok (cs, rest) => .ok (chunk :: cs, rest)
      | .error e => .error e
termination_by data.length
decreasing_by
  simp only [List.length_drop]
  have hne : data ≠ [] := by simpa [List.isEmpty_iff] using _hempty
  have : 0 < data.length := List.length_pos.mpr hne
  omega

/-- `Png.__init__` followed by the first forced parse: check the signature
unless `ignore_signature`, then decode the chunk stream from offset 8. -/
def pngFromBytes (filebytes : List Nat) (ignoreSignature : Bool := false)
    (edit : Bool := true) : Except PngError Png := do
  if ¬ ignoreSignature ∧ ¬ readPngSignature filebytes then
    .error .missingSignature
  else
    let (cs, rest) ← readChunksLoop (filebytes.drop 8)
    .ok { chunks := cs, fileEnd := rest, edit := edit }

/-- `Png.bytes`: signature, then each chunk's bytes in order, then the
trailer (`extra_data`). -/
def pngBytes (p : Png) : List Nat :=
  pngSignature ++ (p.chunks.map PngChunk.bytes).flatten ++ p.fileEnd

/-- `Png.extra_data` (setter): converts the value, forces the parse if
needed, and assigns `__file_end`.  The source performs no `edit` check
here, so the operation cannot fail and always mutates the trailer. -/
def setExtraData (p : Png) (value : List Nat) : Png :=
  { p with fileEnd := value }

/-- `Png.add_chunk(chunk, index=None)`: the default index is 0 for `IHDR`,
the end for `IEND`, and `len(chunks) - 1` otherwise; the chunk is then
inserted.  No `edit` check is performed by the source. -/
def addChunk (p : Png) (c : PngChunk) (index : Option Nat := none) : Png :=
  let i := match index with
    | some i => i
    | none =>
      if c.typeBytes = ihdrType then 0
      else if c.typeBytes = iendType then p.chunks.length
      else p.chunks.length - 1
  { p with chunks := pyInsert i c p.chunks }

/-- The IDAT-refill loop of the `Png.imagedata` setter: walk the chunk list
with its indices, give every `'IDAT'` chunk the next `len(chunk.data)` bytes
of the compressed stream, and remember the index `j` of the last IDAT seen
(`j` starts at 0).  Returns the rewritten chunks, the remaining compressed
bytes and `j`. -/
def refillIdats : List PngChunk → List Nat → Nat → Nat →
    Except PngError (List PngChunk × List Nat × Nat)
  | [], d, _, j => .ok ([], d, j)
  | c :: rest, d, i, j =>
    if c.typeBytes = idatType then do
      let l := c.data.length
      let c' ← c.setData (d.take l)
      let (rest', d', j') ← refillIdats rest (d.drop l) (i + 1) i
      .ok (c' :: rest', d', j')
    else do
      let (rest', d', j') ← refillIdats rest d (i + 1) j
      .ok (c :: rest', d', j')

/-- `Png.imagedata` (setter), taken after the `compress(data)` call: refill
the existing IDAT chunks in order, then create a fresh empty IDAT chunk,
give it whatever compressed bytes remain, and insert it at `j + 1`
(immediately after the last pre-existing IDAT). -/
def setImagedata (p : Png) (compressed : List Nat) : Except PngError Png := do
  let (chunks', rest, j) ← refillIdats p.chunks compressed 0 0
  let c ← createEmptyIdat
  let c ← c.setData rest
  .ok { p with chunks := pyInsert (j + 1) c chunks' }

/-- The number of `'IDAT'` chunks of a container (the caller-visible IDAT
chunk count). -/
def countIdat (p : Png) : Nat :=
  p.chunks.countP (fun c => c.typeBytes = idatType)

/-- The payloads of the `'IDAT'` chunks of a container, in order
(as collected by `Png.datastream`). -/
def idatDatas (p : Png) : List (List Nat) :=
  (p.chunks.filter (fun c => c.typeBytes = idatType)).map PngChunk.data

/-- The payload lengths of the `'IDAT'` chunks of a chunk list. -/
def idatLens (cs : List PngChunk) : List Nat :=
  (cs.filter (fun c => c.typeBytes = idatType)).map (fun c => c.data.length)

/-- Successive slices of `cd` of the given lengths (how the refill loop
cuts the compressed stream over the existing IDAT payload sizes). -/
def segTakes : List Nat → List Nat → List (List Nat)
  | [], _ => []
  | l :: ls, cd => cd.take l :: segTakes ls (cd.drop l)

/-- The IDAT payload layout claimed for `imagedata = d`: each existing
IDAT payload is replaced by the next slice of the compressed stream of its
previous length, and the remainder goes to one freshly inserted IDAT. -/
def refillSpec : List (List Nat) → List Nat → List (List Nat)
  | [], cd => [cd]
  | d :: ds, cd => cd.take d.length :: refillSpec ds (cd.drop d.length)

/-- Well-formed framing of a single chunk's byte string: the length header
describes the payload exactly, and the four type bytes are ASCII. -/
def ChunkFrameWF (b : List Nat) : Prop :=
  b.length = readU32BE b + 12 ∧ ∀ x ∈ (b.drop 4).take 4, x < 128

/-!  ### `ScanLine` filter pipeline (png.py, class `ScanLine`)

`ScanLine.unfiltered` (branch where `data` is the clean representation) and
`ScanLine.data` (branch where `unfiltered` is the clean representation) are
the two directions of the per-byte PNG filter arithmetic.  `ft` is the
filter type, `s` is `workingsize = ceil(channelcount * bitdepth / 8)`,
`prev` is `self._previous.unfiltered` (or `none` for the first scanline),
and `u` is the byte list the neighbours `a` are read from. -/

/-- The three neighbour values `a`, `b`, `c` exactly as computed in the
loops of `ScanLine.unfiltered` and `ScanLine.data`:
`a = u[index - s]` unless `index < s`;
`b = prev[index]` only for filter types 2, 3, 4 with a previous line;
`c = prev[index - s]` only for filter type 4 with `index ≥ s` and a
previous line. -/
def neighbours (ft s : Nat) (prev : Option (List Nat)) (u : List Nat)
    (index : Nat) : Int × Int × Int :=
  let a : Int := if index < s then 0 else u.getD (index - s) 0
  let b : Int := match prev with
    | none => 0
    | some pl => if ft = 2 ∨ ft = 3 ∨ ft = 4 then pl.getD index 0 else 0
  let c : Int := match prev with
    | none => 0
    | some pl => if index < s ∨ ft ≠ 4 then 0 else pl.getD (index - s) 0
  (a, b, c)

/-- The predictor `X` added (resp. subtracted) for a byte at `index`:
`a`, `b`, `floor((a+b)/2)` or `paeth(a, b, c)` for filter types 1..4; any
other filter type raises `UnsupportedFilterTypeException`. -/
def predictorE (ft s : Nat) (prev : Option (List Nat)) (u : List Nat)
    (index : Nat) : Except PngError Int :=
  let (a, b, c) := neighbours ft s prev u index
  if ft = 1 then .ok a
  else if ft = 2 then .ok b
  else if ft = 3 then .ok ((a + b) / 2)
  else if ft = 4 then .ok (paeth a b c)
  else .error (.unsupportedFilter ft)

/-- Total version of `predictorE` on the supported filter types 1..4
(used only through `predictorE_eq_ok`). -/
def predictorT (ft s : Nat) (prev : Option (List Nat)) (u : List Nat)
    (index : Nat) : Int :=
  let (a, b, c) := neighbours ft s prev u index
  if ft = 1 then a
  else if ft = 2 then b
  else if ft = 3 then (a + b) / 2
  else paeth a b c

/-- The loop of `ScanLine.unfiltered` for a non-zero filter type: walk the
payload bytes, appending `(byte + X) % 256` where `X` reads neighbours from
the bytes already reconstructed (`acc`, whose length is the current index). -/
def unfilterGo (ft s : Nat) (prev : Option (List Nat)) :
    List Nat → List Nat → Except PngError (List Nat)
  | acc, [] => .ok acc
  | acc, byte :: rest => do
    let x ← predictorE ft s prev acc acc.length
    unfilterGo ft s prev (acc ++ [(((byte : Int) + x) % 256).toNat]) rest

/-- `ScanLine.unfiltered`, data-clean branch: for filter type 0 the payload
is returned as is, otherwise the reconstruction loop runs.  `payload` is
`self.data[1:]` (the row without its leading filter byte). -/
def scanlineUnfiltered (ft s : Nat) (prev : Option (List Nat))
    (payload : List Nat) : Except PngError (List Nat) :=
  if ft = 0 then .ok payload
  else unfilterGo ft s prev [] payload

/-- The loop of `ScanLine.data` for a non-zero filter type: walk the
unfiltered bytes `src` (a suffix of `u`, with `index` the absolute
position), appending `(byte - X) % 256` where `X` reads neighbours from the
full unfiltered list `u`. -/
def refilterGo (ft s : Nat) (prev : Option (List Nat)) (u : List Nat) :
    List Nat → Nat → Except PngError (List Nat)
  | [], _ => .ok []
  | byte :: rest, index => do
    let x ← predictorE ft s prev u index
    let tail ← refilterGo ft s prev u rest (index + 1)
    .ok ((((byte : Int) - x) % 256).toNat :: tail)

/-- `ScanLine.data`, unfiltered-clean branch: `pack('B', filtertype)`
followed by the re-filtered bytes (for filter type 0, by the unfiltered
bytes themselves). -/
def scanlineData (ft s : Nat) (prev : Option (List Nat)) (u : List Nat) :
    Except PngError (List Nat) :=
  if ft = 0 then .ok (ft :: u)
  else do
    let filtered ← refilterGo ft s prev u u 0
    .ok (ft :: filtered)

/-- Proof-side total version of `unfilterGo` (coincides with it on the
supported filter types 1..4, see `unfilterGo_eq_uGoT`). -/
def uGoT (ft s : Nat) (prev : Option (List Nat)) : List Nat → List Nat → List Nat
  | acc, [] => acc
  | acc, byte :: rest =>
    uGoT ft s prev
      (acc ++ [(((byte : Int) + predictorT ft s prev acc acc.length) % 256).toNat]) rest

/-- Proof-side total version of `refilterGo` (coincides with it on the
supported filter types 1..4, see `refilterGo_eq_rGoT`). -/
def rGoT (ft s : Nat) (prev : Option (List Nat)) (u : List Nat) :
    List Nat → Nat → List Nat
  | [], _ => []
  | byte :: rest, index =>
    (((byte : Int) - predictorT ft s prev u index) % 256).toNat ::
      rGoT ft s prev u rest (index + 1)

/-!  ### Typed chunk handlers (chunks.py) -/

/-- The two keys accepted by `ChunktEXt.get` (any other key raises
`KeyError`, which the typed field makes unrepresentable). -/
inductive TEXtField where
  | keyword
  | text
  deriving DecidableEq, Repr

/-- `ChunktEXt.get(chunk, field)` over the chunk's payload bytes: require
exactly one NUL byte at offset at most 78, split at it, Latin-1 decode both
halves (a bijection on bytes, so the byte lists are kept), and return.
Note the source returns the text half for the `'keyword'` key and the
keyword half for the `'text'` key. -/
def tEXtGet (data : List Nat) (field : TEXtField) : Except PngError (List Nat) :=
  if data.count 0 ≠ 1 ∨ data.indexOf 0 > 78 then .error .invalidChunkStructure
  else
    let sep := data.indexOf 0
    let keyword := data.take sep
    let text := data.drop (sep + 1)
    match field with
    | .keyword => .ok text
    | .text => .ok keyword

/-- `ChunkPLTE._is_length_valid`: the chunk length must be a multiple of 3
and (from the superclass) between `min_length = 3` and `max_length = 768`. -/
def plteIsLengthValid (l : Nat) : Bool := l % 3 = 0 && (3 ≤ l && l ≤ 768)

/-- `ChunkPLTE._is_payload_valid`: `raise Exception('Not implemented')`. -/
def plteIsPayloadValid : Except PngError Bool := .error .notImplemented

/-- `ChunkImplementation.is_valid` specialised to `ChunkPLTE`:
`_is_length_valid(chunk) and _is_payload_valid(chunk)`, with Python's
short-circuit `and` (the payload validator only runs when the length is
valid). -/
def plteIsValid (c : PngChunk) : Except PngError Bool :=
  if plteIsLengthValid c.length then plteIsPayloadValid else .ok false

/-- `ChunkPLTE.get(chunk, index)`: palette entry `index` as an RGB triple;
`IndexError` for an index above 256 or a slice shorter than three bytes. -/
def plteGet (c : PngChunk) (index : Nat) : Except PngError (Nat × Nat × Nat) :=
  if index > 256 then .error .indexError
  else
    match (c.data.drop (index * 3)).take 3 with
    | [r, g, b] => .ok (r, g, b)
    | _ => .error .indexError

/-- `ChunkPLTE.get_all(chunk)` (reached from `PngChunk.get_payload`): raise
unless `is_valid`, then collect the `len(chunk) // 3` palette entries. -/
def plteGetAll (c : PngChunk) : Except PngError (List (Nat × Nat × Nat)) := do
  let v ← plteIsValid c
  if ¬ v then .error .invalidChunkStructure
  else (List.range (c.length / 3)).mapM (plteGet c)

/-!  ### `Png.getpixel` (png.py, lines 368-423)

The pixel pipeline upstream of `getpixel` (IDAT concatenation, inflate,
scanline segmentation) is captured by a decoded view of the image: the
IHDR-derived attributes and the `pixels` lists of the scanlines, plus the
first `'PLTE'` chunk when one exists (`get_chunks_by_type('PLTE')[0]`). -/

structure DecodedImage where
  width : Nat
  height : Nat
  colortypeCode : Nat
  channelCount : Nat
  scanpixels : List (List (List Nat))
  plte : Option PngChunk
  deriving DecidableEq, Repr

/-- The value returned by `Png.getpixel`: a bare channel sample, a tuple of
channel samples, or a palette RGB triple. -/
inductive PixelResult where
  | num (n : Nat)
  | vec (l : List Nat)
  | rgb (t : Nat × Nat × Nat)
  deriving DecidableEq, Repr

/-- `Png.__validate_pixel_pos(position)`: raise `IndexError` when
`x >= width` or `y >= height` (these are the only checks performed on the
coordinate values; Python `int`s may be negative), else return `(x, y)`. -/
def validatePixelPos (width height : Nat) (x y : Int) : Except PngError (Int × Int) :=
  if x ≥ (width : Int) then .error .indexError
  else if y ≥ (height : Int) then .error .indexError
  else .ok (x, y)

/-- `Png.getpixel(position)`: validate the position, then fetch
`self.scanlines[y].pixels[x]` (Python indexing: negative indices count from
the end), resolve through the PLTE palette for colour type 3, and unwrap
the 1-tuple for a single-channel non-indexed image. -/
def getpixel (img : DecodedImage) (pos : Int × Int) : Except PngError PixelResult :=
  match validatePixelPos img.width img.height pos.1 pos.2 with
  | .error e => .error e
  | .ok (x, y) =>
    match pyIndex img.scanpixels y with
    | none => .error .indexError
    | some row =>
      match pyIndex row x with
      | none => .error .indexError
      | some p =>
        if img.colortypeCode = 3 then
          match img.plte with
          | none => .error .invalidPngStructure
          | some plteChunk =>
            match p.head? with
            | none => .error .indexError
            | some i => (plteGet plteChunk i).map .rgb
        else if img.channelCount = 1 then
          match p.head? with
          | none => .error .indexError
          | some v => .ok (.num v)
        else .ok (.vec p)

/-!  ### `compress` / `decompress` (utils.py)

The DEFLATE backend is the external `zlib` library; it enters the model as
function parameters (`deflate w` for `zlib.compressobj(level=8, wbits=w)`
followed by `compress` + `flush`, `zfull` for `zlib.compress`, `zdec` for
`zlib.decompress`).  The window-selection loop keeps the invariant
`p == 2 ** window_size`, so the exponent alone is carried here. -/

/-- The loop `while len(data) > p: window_size += 1; p <<= 1` with
`p = 2 ** e`: the smallest exponent `e' ≥ e` with `len(data) ≤ 2 ** e'`. -/
def winExp (n : Nat) (e : Nat) : Nat :=
  if 2 ^ e < n then winExp n (e + 1) else e
termination_by n - 2 ^ e
decreasing_by
  have h2 : 2 ^ e < 2 ^ (e + 1) := by
    have := Nat.pow_lt_pow_right (a := 2) (by omega) (Nat.lt_succ_self e)
    simpa using this
  omega

/-- `window_size` as computed by `compress` for a small payload:
start from `window_size = 8`, `p = 256`. -/
def windowSize (n : Nat) : Nat := winExp n 8

/-- `compress(data)`: payloads of at most 16384 bytes go through a
compressor with the reduced window `2 ** windowSize`, larger ones through
plain `zlib.compress`. -/
def compressModel (deflate : Nat → List Nat → List Nat)
    (zfull : List Nat → List Nat) (d : List Nat) : List Nat :=
  if d.length ≤ 16384 then deflate (windowSize d.length) d else zfull d

/-- `decompress(data)`: plain `zlib.decompress`. -/
def decompressModel (zdec : List Nat → List Nat) (d : List Nat) : List Nat :=
  zdec d

/-!  ### Concrete test vectors -/

/-- A `PLTE` chunk with a single palette entry (the CRC plays no role in
the properties below and is left zero). -/
def plteSampleChunk : PngChunk :=
  PngChunk.ofBytes ([0, 0, 0, 3] ++ [80, 76, 84, 69] ++ [255, 0, 0] ++ [0, 0, 0, 0])

/-- A minimal `IEND` chunk, with its real CRC `0xAE426082`. -/
def iendSampleBytes : List Nat := [0, 0, 0, 0] ++ iendType ++ [174, 66, 96, 130]

/-- An `IHDR` chunk for a 1x1 greyscale bit-depth-1 image. -/
def ihdrSampleChunk : PngChunk :=
  PngChunk.ofBytes ([0, 0, 0, 13] ++ ihdrType ++
    [0, 0, 0, 1, 0, 0, 0, 1, 1, 0, 0, 0, 0] ++ [0, 0, 0, 0])

/-- An `IDAT` chunk with a four-byte payload. -/
def idatSampleChunk : PngChunk :=
  PngChunk.ofBytes ([0, 0, 0, 4] ++ idatType ++ [1, 2, 3, 4] ++ [0, 0, 0, 0])

/-- A container with exactly one IDAT chunk of payload length 4, as parsed
from a file (all chunks editable). -/
def pngSample : Png :=
  { chunks := [ihdrSampleChunk, idatSampleChunk, PngChunk.ofBytes iendSampleBytes]
    fileEnd := []
    edit := true }

/-- A decoded view of a 2x2 single-channel greyscale image. -/
def imgSample : DecodedImage :=
  { width := 2, height := 2, colortypeCode := 0, channelCount := 1
    scanpixels := [[[1], [2]], [[3], [4]]], plte := none }

/-!  ## Theorems -/

/-- C7 (counterexample): the four concrete values claimed for the Paeth
predictor are false for the predictor the source (and the claim itself)
defines: already the first one, `paeth(10, 20, 15)`, evaluates to 15
(`p = 15`, `pa = pb = 5`, `pc = 0`, so the `else` branch returns `c`),
not 20. -/
theorem paeth_claimed_values_false :
    ¬ (paeth 10 20 15 = 20 ∧ paeth 200 100 150 = 100 ∧
       paeth 0 0 0 = 0 ∧ paeth 255 0 0 = 0) := by
  decide

/-- C7 (amended): the Paeth predictor of `utils.py` satisfies
`paeth(10, 20, 15) == 15`, `paeth(200, 100, 150) == 150`,
`paeth(0, 0, 0) == 0` and `paeth(255, 0, 0) == 255`, with
`p = a+b-c`, `pa = |p-a|`, `pb = |p-b|`, `pc = |p-c|`, returning `a` if
`pa ≤ pb ∧ pa ≤ pc`, else `b` if `pb ≤ pc`, else `c`. -/
theorem paeth_values :
    paeth 10 20 15 = 15 ∧ paeth 200 100 150 = 150 ∧
    paeth 0 0 0 = 0 ∧ paeth 255 0 0 = 255 := by
  decide

/-- C2 (code bug): on a tEXt payload `b"Author\x00Alice"` (one NUL at
offset 6 ≤ 78), `ChunktEXt.get` returns the text half `"Alice"` for the
key `"keyword"` and the keyword half `"Author"` for the key `"text"` —
the opposite of what the claim, the spec, and the class's own docstring
("keyword: The keyword, text: The actual text") promise. -/
theorem tEXt_get_swaps_keyword_and_text :
    tEXtGet [65, 117, 116, 104, 111, 114, 0, 65, 108, 105, 99, 101] .keyword
      = .ok [65, 108, 105, 99, 101] ∧
    tEXtGet [65, 117, 116, 104, 111, 114, 0, 65, 108, 105, 99, 101] .text
      = .ok [65, 117, 116, 104, 111, 114] :=
  ⟨rfl, rfl⟩

/-- C4 (code bug): `PngChunk.iscritical` masks bit 4 (`0b000010000 = 0x10`)
instead of bit 5 (`0x20`).  On a `PLTE` chunk the first type byte is
`'P' = 0x50`, whose `0x20` bit is clear (uppercase, critical per the claim
and the method's own docstring), yet `iscritical` returns `false` (and
`isancillary` returns `true`) because the `0x10` bit of `0x50` is set. -/
theorem iscritical_uses_bit4_mask_on_PLTE :
    plteSampleChunk.bytes.getD 4 0 = 80 ∧
    plteSampleChunk.bytes.getD 4 0 &&& 0x20 = 0 ∧
    plteSampleChunk.iscritical = false ∧
    plteSampleChunk.isancillary = true := by
  decide

/-- C8: on any `PLTE` chunk whose length is a multiple of 3 between 3 and
768, `_is_length_valid` holds, so `is_valid` reaches
`ChunkPLTE._is_payload_valid`, which is `raise Exception('Not implemented')`;
hence `is_valid` never returns a boolean, and `get_payload` (which calls
`get_all`, which calls `is_valid` first) raises as well. -/
theorem plte_is_valid_raises (c : PngChunk) (h1 : c.length % 3 = 0)
    (h2 : 3 ≤ c.length) (h3 : c.length ≤ 768) :
    plteIsValid c = .error .notImplemented ∧
    plteGetAll c = .error .notImplemented := by
  have hl : plteIsLengthValid c.length = true := by
    simp only [plteIsLengthValid, Bool.and_eq_true, decide_eq_true_eq]
    omega
  have hv : plteIsValid c = .error .notImplemented := by
    simp [plteIsValid, hl, plteIsPayloadValid]
  refine ⟨hv, ?_⟩
  simp [plteGetAll, hv]
  rfl

/-- C8 witness: the one-entry palette chunk has length 3 and both
validator and payload reader raise on it. -/
theorem plte_is_valid_raises_witness :
    plteIsValid plteSampleChunk = .error .notImplemented ∧
    plteGetAll plteSampleChunk = .error .notImplemented :=
  plte_is_valid_raises plteSampleChunk (by decide) (by decide) (by decide)

/-- C5 (code bug): a `Png` constructed from a minimal PNG with
`edit = False` still accepts the `extra_data` assignment — the setter
(png.py lines 217-228) performs no `edit` check and mutates the trailer —
whereas a `PngChunk` constructed with `edit = False` does raise on its
`data` setter, as the claim demands for every mutator. -/
theorem extra_data_setter_ignores_edit_flag :
    (pngFromBytes (pngSignature ++ iendSampleBytes) false false).map
        (fun p => (p.edit, p.fileEnd, (setExtraData p [42]).fileEnd))
      = .ok (false, [], [42]) ∧
    (PngChunk.ofBytes iendSampleBytes false).setData [1]
      = .error .editReadOnly := by
  constructor
  · have h : readChunksLoop ((pngSignature ++ iendSampleBytes).drop 8)
        = .ok ([PngChunk.ofBytes iendSampleBytes], []) := by
      rw [readChunksLoop]
      simp +decide [iendSampleBytes, pngSignature, iendType, readU32BE,
        chunkTypeAscii, PngChunk.ofBytes, PngChunk.typeBytes]
    simp +decide [pngFromBytes, readPngSignature, h, setExtraData]
    rfl
  · rfl

/-- C6 (counterexample): on a container with a single IDAT chunk of payload
length 4, writing a compressed stream that fits in the existing IDAT
chunks does not preserve the IDAT chunk count: a stream of exactly 4 bytes
yields two IDAT chunks (the remainder chunk is inserted even when empty),
and a stream of 2 bytes additionally shrinks the pre-existing IDAT's
payload from 4 bytes to 2. -/
theorem setImagedata_increases_idat_count :
    countIdat pngSample = 1 ∧
    (setImagedata pngSample [5, 6, 7, 8]).map countIdat = .ok 2 ∧
    (setImagedata pngSample [5, 6]).map idatDatas = .ok [[5, 6], []] := by
  refine ⟨rfl, rfl, rfl⟩

/-!  ### The scanline filter round trip (C3) -/

/-- On the supported non-zero filter types the predictor never raises and
agrees with its total version. -/
theorem predictorE_eq_ok (ft s : Nat) (prev : Option (List Nat)) (u : List Nat)
    (i : Nat) (h1 : 1 ≤ ft) (h4 : ft ≤ 4) :
    predictorE ft s prev u i = .ok (predictorT ft s prev u i) := by
  interval_cases ft <;> simp [predictorE, predictorT]

/-- On the supported non-zero filter types the reconstruction loop never
raises and agrees with its total version. -/
theorem unfilterGo_eq_uGoT (ft s : Nat) (prev : Option (List Nat))
    (h1 : 1 ≤ ft) (h4 : ft ≤ 4) :
    ∀ (rest acc : List Nat),
      unfilterGo ft s prev acc rest = .ok (uGoT ft s prev acc rest) := by
  intro rest
  induction rest with
  | nil => intro acc; rfl
  | cons byte rest ih =>
    intro acc
    rw [unfilterGo, uGoT, predictorE_eq_ok ft s prev acc acc.length h1 h4]
    simpa using ih _

/-- On the supported non-zero filter types the re-filtering loop never
raises and agrees with its total version. -/
theorem refilterGo_eq_rGoT (ft s : Nat) (prev : Option (List Nat)) (u : List Nat)
    (h1 : 1 ≤ ft) (h4 : ft ≤ 4) :
    ∀ (src : List Nat) (idx : Nat),
      refilterGo ft s prev u src idx = .ok (rGoT ft s prev u src idx) := by
  intro src
  induction src with
  | nil => intro idx; rfl
  | cons byte rest ih =>
    intro idx
    rw [refilterGo, rGoT, predictorE_eq_ok ft s prev u idx h1 h4]
    simp [ih (idx + 1)]
    rfl

/-- The predictor at a position inside `acc` ignores bytes appended after
`acc`: the left neighbour `a` is read strictly below the current index. -/
theorem predictorT_append (ft s : Nat) (prev : Option (List Nat))
    (acc t : List Nat) (idx : Nat) (hs : 0 < s) (hidx : idx ≤ acc.length) :
    predictorT ft s prev (acc ++ t) idx = predictorT ft s prev acc idx := by
  by_cases hlt : idx < s
  · simp [predictorT, neighbours, hlt]
  · have hbound : idx - s < acc.length := by omega
    have hget : (acc ++ t)[idx - s]? = acc[idx - s]? := List.getElem?_append_left hbound
    simp [predictorT, neighbours, hlt, hget]

/-- The reconstruction loop only ever appends to its accumulator. -/
theorem uGoT_append (ft s : Nat) (prev : Option (List Nat)) :
    ∀ (rest acc : List Nat), ∃ t, uGoT ft s prev acc rest = acc ++ t := by
  intro rest
  induction rest with
  | nil => intro acc; exact ⟨[], by simp [uGoT]⟩
  | cons byte rest ih =>
    intro acc
    obtain ⟨t, ht⟩ :=
      ih (acc ++ [(((byte : Int) + predictorT ft s prev acc acc.length) % 256).toNat])
    refine ⟨(((byte : Int) + predictorT ft s prev acc acc.length) % 256).toNat :: t, ?_⟩
    rw [uGoT, ht]
    simp

/-- Re-filtering the suffix of the reconstruction that lies beyond `acc`
recovers the original filtered bytes: the two loops subtract and add the
same predictor at every index. -/
theorem rGoT_inverts (ft s : Nat) (prev : Option (List Nat)) (hs : 0 < s) :
    ∀ (rest acc : List Nat), (∀ x ∈ rest, x < 256) →
      rGoT ft s prev (uGoT ft s prev acc rest)
        ((uGoT ft s prev acc rest).drop acc.length) acc.length = rest := by
  intro rest
  induction rest with
  | nil =>
    intro acc _
    rw [uGoT, List.drop_length, rGoT]
  | cons byte rest ih =>
    intro acc hb
    have hbyte : byte < 256 := hb byte (List.mem_cons_self byte rest)
    have hstep : uGoT ft s prev acc (byte :: rest)
        = uGoT ft s prev
            (acc ++ [(((byte : Int) + predictorT ft s prev acc acc.length) % 256).toNat])
            rest := by
      rw [uGoT]
    obtain ⟨t, ht⟩ := uGoT_append ft s prev rest
      (acc ++ [(((byte : Int) + predictorT ft s prev acc acc.length) % 256).toNat])
    rw [hstep, ht]
    have hdrop : ((acc ++ [(((byte : Int) + predictorT ft s prev acc acc.length) % 256).toNat]) ++ t).drop acc.length
        = (((byte : Int) + predictorT ft s prev acc acc.length) % 256).toNat :: t := by
      rw [List.append_assoc, List.drop_left]
      rfl
    rw [hdrop, rGoT]
    have hpred : predictorT ft s prev
        ((acc ++ [(((byte : Int) + predictorT ft s prev acc acc.length) % 256).toNat]) ++ t)
        acc.length = predictorT ft s prev acc acc.length := by
      rw [List.append_assoc]
      exact predictorT_append ft s prev acc _ acc.length hs (le_refl _)
    have hcast : ((((((byte : Int) + predictorT ft s prev acc acc.length) % 256).toNat : Nat) : Int))
        = ((byte : Int) + predictorT ft s prev acc acc.length) % 256 :=
      Int.toNat_of_nonneg (Int.emod_nonneg _ (by norm_num))
    have hz : ((((((byte : Int) + predictorT ft s prev acc acc.length) % 256).toNat : Nat) : Int)
          - predictorT ft s prev acc acc.length) % 256 = (byte : Int) := by
      rw [hcast]
      have h2 : (byte : Int) < 256 := by exact_mod_cast hbyte
      omega
    have htail : rGoT ft s prev
        ((acc ++ [(((byte : Int) + predictorT ft s prev acc acc.length) % 256).toNat]) ++ t)
        t (acc.length + 1) = rest := by
      have hmem := fun x hx => hb x (List.mem_cons_of_mem byte hx)
      have hih := ih (acc ++ [(((byte : Int) + predictorT ft s prev acc acc.length) % 256).toNat]) hmem
      rw [ht] at hih
      have hdrop2 : ((acc ++ [(((byte : Int) + predictorT ft s prev acc acc.length) % 256).toNat]) ++ t).drop
          (acc ++ [(((byte : Int) + predictorT ft s prev acc acc.length) % 256).toNat]).length = t :=
        List.drop_left _ _
      rw [hdrop2] at hih
      simpa using hih
    rw [hpred, hz, htail]
    simp

/-- C3: for every filter type `f ∈ {0,1,2,3,4}`, every row `f ‖ payload` of
bytes, every stride `s ≥ 1` and every previous-row context (`none`, or a
previous unfiltered row at least as long as the payload, so that the
source's list accesses stay in bounds), re-filtering the unfiltered bytes
with the same `f` and context reproduces the row exactly:
`ScanLine.data` applied to `ScanLine.unfiltered` gives back
`filter_byte ‖ payload`, each byte being `(byte + X) % 256` on the way up
and `(byte - X) % 256` on the way back for the same predictor `X`. -/
theorem filter_roundtrip (ft s : Nat) (prev : Option (List Nat)) (payload : List Nat)
    (hft : ft ≤ 4) (hs : 0 < s) (hbytes : ∀ x ∈ payload, x < 256)
    (_hprev : ∀ pl, prev = some pl → payload.length ≤ pl.length) :
    ∃ u, scanlineUnfiltered ft s prev payload = .ok u ∧
      scanlineData ft s prev u = .ok (ft :: payload) := by
  by_cases h0 : ft = 0
  · subst h0
    exact ⟨payload, rfl, rfl⟩
  · have h1 : 1 ≤ ft := Nat.one_le_iff_ne_zero.mpr h0
    refine ⟨uGoT ft s prev [] payload, ?_, ?_⟩
    · simp [scanlineUnfiltered, h0, unfilterGo_eq_uGoT ft s prev h1 hft payload []]
    · have hinv := rGoT_inverts ft s prev hs payload [] hbytes
      simp only [List.length_nil, List.drop_zero] at hinv
      simp [scanlineData, h0, refilterGo_eq_rGoT ft s prev _ h1 hft, hinv]
      rfl

/-- C3 witness: a Paeth-filtered (`f = 4`) three-channel depth-8 row with a
previous row round-trips. -/
theorem filter_roundtrip_witness :
    ∃ u, scanlineUnfiltered 4 3 (some [1, 2, 3, 4, 5, 6]) [10, 250, 30, 40, 50, 60] = .ok u ∧
      scanlineData 4 3 (some [1, 2, 3, 4, 5, 6]) u = .ok (4 :: [10, 250, 30, 40, 50, 60]) :=
  filter_roundtrip 4 3 (some [1, 2, 3, 4, 5, 6]) [10, 250, 30, 40, 50, 60]
    (by decide) (by decide) (by decide)
    (by intro pl hp; cases hp; decide)

/-!  ### The byte-exact parse/serialize round trip (C1) -/

/-- A big-endian read of the first four bytes ignores appended data. -/
theorem readU32BE_append (l r : List Nat) (h : 4 ≤ l.length) :
    readU32BE (l ++ r) = readU32BE l := by
  match l, h with
  | a :: b :: c :: d :: t, _ => rfl

/-- The constructor's truncation to `length + 12` bytes is the identity on
a well-formed chunk byte string. -/
theorem ofBytes_bytes_of_wf (b : List Nat) (hwf : ChunkFrameWF b) :
    (PngChunk.ofBytes b).bytes = b := by
  show b.take (readU32BE b + 12) = b
  rw [← hwf.1]
  exact List.take_length b

/-- One iteration of the chunk-stream parser on a well-formed leading
chunk: the chunk is cut off exactly, and parsing stops or recurses
depending on whether its type is `'IEND'`. -/
theorem readChunksLoop_cons (b rest : List Nat) (hwf : ChunkFrameWF b) :
    readChunksLoop (b ++ rest)
      = if (b.drop 4).take 4 = iendType then .ok ([PngChunk.ofBytes b], rest)
        else match readChunksLoop rest with
          | .ok (cs, tr) => .ok (PngChunk.ofBytes b :: cs, tr)
          | .error e => .error e := by
  have hblen : b.length = readU32BE b + 12 := hwf.1
  have h12 : 12 ≤ b.length := by omega
  have hne : ((b ++ rest).isEmpty = true) = False := by
    simp only [List.isEmpty_iff, List.append_eq_nil, eq_iff_iff, iff_false]
    rintro ⟨rfl, -⟩
    simp at h12
  have hlen4 : ¬ (b ++ rest).length < 4 := by
    simp only [List.length_append]
    omega
  have hread : readU32BE (b ++ rest) = readU32BE b :=
    readU32BE_append b rest (by omega)
  have htake : (b ++ rest).take (readU32BE b + 12) = b := List.take_left' (by omega)
  have hdrop : (b ++ rest).drop (readU32BE b + 12) = rest := List.drop_left' (by omega)
  have hbytes : (PngChunk.ofBytes b).bytes = b := ofBytes_bytes_of_wf b hwf
  have htype : (PngChunk.ofBytes b).typeBytes = (b.drop 4).take 4 := by
    show ((PngChunk.ofBytes b).bytes.drop 4).take 4 = _
    rw [hbytes]
  have hascii : chunkTypeAscii (PngChunk.ofBytes b) = true := by
    simp only [chunkTypeAscii, htype, List.all_eq_true, decide_eq_true_eq]
    exact hwf.2
  rw [readChunksLoop]
  simp only [hne, dif_neg, not_false_iff, hlen4, if_neg, hread, htake, hdrop, hascii,
    Bool.not_true, htype, not_true, if_false]



/-- The parser maps a well-formed chunk sequence terminated by an `'IEND'`
chunk to exactly those chunks, and keeps the remaining bytes as trailer. -/
theorem readChunksLoop_chunks :
    ∀ (cs : List (List Nat)) (last tr : List Nat),
      (∀ b ∈ cs, ChunkFrameWF b ∧ (b.drop 4).take 4 ≠ iendType) →
      ChunkFrameWF last → (last.drop 4).take 4 = iendType →
      readChunksLoop ((cs ++ [last]).flatten ++ tr)
        = .ok ((cs ++ [last]).map (fun b => PngChunk.ofBytes b), tr) := by
  intro cs
  induction cs with
  | nil =>
    intro last tr _ hlast hIend
    simp only [List.nil_append, List.flatten, List.flatten_nil, List.append_nil]
    rw [readChunksLoop_cons last tr hlast, if_pos hIend]
    simp
  | cons b cs ih =>
    intro last tr hcs hlast hIend
    have hb := hcs b (List.mem_cons_self b _)
    have hrest : readChunksLoop ((cs ++ [last]).flatten ++ tr)
        = .ok ((cs ++ [last]).map (fun x => PngChunk.ofBytes x), tr) :=
      ih last tr (fun x hx => hcs x (List.mem_cons_of_mem b hx)) hlast hIend
    have hflat : ((b :: cs) ++ [last]).flatten ++ tr = b ++ ((cs ++ [last]).flatten ++ tr) := by
      simp
    rw [hflat, readChunksLoop_cons b _ hb.1, if_neg hb.2, hrest]
    simp

/-- C1: for every well-formed PNG byte string — the 8-byte signature, a
sequence of properly framed chunks (length header matching the byte count,
ASCII type) of which only the final one is an `'IEND'` chunk, then
arbitrary trailer bytes — constructing a `Png` succeeds and reading its
`bytes` yields exactly the input: the serialization is the signature, then
each parsed chunk's bytes in their original order, then the trailer
verbatim. -/
theorem png_bytes_roundtrip (cs : List (List Nat)) (last tr : List Nat)
    (hcs : ∀ b ∈ cs, ChunkFrameWF b ∧ (b.drop 4).take 4 ≠ iendType)
    (hlast : ChunkFrameWF last) (hIend : (last.drop 4).take 4 = iendType) :
    ∃ p, pngFromBytes (pngSignature ++ ((cs ++ [last]).flatten ++ tr)) false true = .ok p ∧
      pngBytes p = pngSignature ++ ((cs ++ [last]).flatten ++ tr) := by
  have hsig : readPngSignature (pngSignature ++ ((cs ++ [last]).flatten ++ tr)) = true := by
    simp only [readPngSignature, decide_eq_true_eq]
    exact List.take_left' rfl
  have hdrop8 : (pngSignature ++ ((cs ++ [last]).flatten ++ tr)).drop 8
      = (cs ++ [last]).flatten ++ tr := List.drop_left' rfl
  have hloop := readChunksLoop_chunks cs last tr hcs hlast hIend
  refine ⟨{ chunks := (cs ++ [last]).map (fun b => PngChunk.ofBytes b), fileEnd := tr, edit := true }, ?_, ?_⟩
  · simp only [pngFromBytes, hsig, hdrop8, hloop]
    rfl
  · show pngSignature ++ (((cs ++ [last]).map (fun b => PngChunk.ofBytes b)).map PngChunk.bytes).flatten ++ tr = _
    have hmap : ((cs ++ [last]).map (fun b => PngChunk.ofBytes b)).map PngChunk.bytes = cs ++ [last] := by
      rw [List.map_map]
      have : ∀ b ∈ cs ++ [last], (PngChunk.bytes ∘ fun b => PngChunk.ofBytes b) b = id b := by
        intro b hb
        rcases List.mem_append.mp hb with h | h
        · exact ofBytes_bytes_of_wf b (hcs b h).1
        · simp only [List.mem_singleton] at h
          subst h
          exact ofBytes_bytes_of_wf b hlast
      rw [List.map_congr_left this, List.map_id]
    rw [hmap, List.append_assoc]

/-- C1 witness: a minimal PNG (signature, IEND chunk, two trailer bytes)
round-trips. -/
theorem png_bytes_roundtrip_witness :
    ∃ p, pngFromBytes (pngSignature ++ (([] ++ [iendSampleBytes]).flatten ++ [7, 7])) false true = .ok p ∧
      pngBytes p = pngSignature ++ (([] ++ [iendSampleBytes]).flatten ++ [7, 7]) :=
  png_bytes_roundtrip [] iendSampleBytes [7, 7]
    (by intro b hb; cases hb) (by constructor <;> decide) (by decide)

/-!  ### Negative pixel coordinates (C9) -/

/-- Python indexing with an in-range negative index equals indexing with
the wrapped nonnegative index, and succeeds. -/
theorem pyIndex_neg (l : List α) (i : Int) (h1 : -(l.length : Int) ≤ i) (h2 : i < 0) :
    pyIndex l i = pyIndex l ((l.length : Int) + i) ∧ ∃ a, pyIndex l i = some a := by
  have hpos : 0 ≤ (l.length : Int) + i := by omega
  have hneg : ¬ 0 ≤ i := by omega
  have hlt : ((l.length : Int) + i).toNat < l.length := by omega
  refine ⟨by simp [pyIndex, hneg, hpos], ?_⟩
  have hsimp : pyIndex l i = l.get? ((l.length : Int) + i).toNat := by
    simp [pyIndex, hneg, hpos]
  rw [hsimp, List.get?_eq_get hlt]
  exact ⟨_, rfl⟩

/-- A successful Python indexing returns an element of the list. -/
theorem pyIndex_mem (l : List α) (i : Int) (a : α) (h : pyIndex l i = some a) : a ∈ l := by
  simp only [pyIndex] at h
  split at h
  · exact List.get?_mem h
  · split at h
    · exact List.get?_mem h
    · cases h



theorem pyIndex_none (l : List α) (i : Int)
    (h : i < -(l.length : Int) ∨ (l.length : Int) ≤ i) : pyIndex l i = none := by
  rcases h with h | h
  · have h1 : ¬ 0 ≤ i := by omega
    have h2 : ¬ 0 ≤ (l.length : Int) + i := by omega
    simp [pyIndex, h1, h2]
  · have h1 : 0 ≤ i := by omega
    have h2 : l.length ≤ i.toNat := by omega
    simp [pyIndex, h1, List.get?_eq_none.mpr h2]
    omega

/-- C9 (counterexample): on the 2x2 sample image, `getpixel((-3, 0))`
raises an `IndexError` (from the tuple indexing `pixels[x]`) even though
`-3 < width` and `0 < height`, so out-of-range errors are not raised
"only when x ≥ w or y ≥ h". -/
theorem getpixel_below_window_raises :
    getpixel imgSample (-3, 0) = .error .indexError ∧
    (-3 : Int) < (imgSample.width : Int) ∧ (0 : Int) < (imgSample.height : Int) :=
  ⟨rfl, by decide, by decide⟩

/-- Outside the window `[-w, w) × [-h, h)`, `getpixel` raises: the
validator catches the upper bounds and the Python tuple indexing raises
for indices below `-len`. -/
theorem getpixel_out_of_window (img : DecodedImage) (a b : Int)
    (hrows : img.scanpixels.length = img.height)
    (hcols : ∀ row ∈ img.scanpixels, row.length = img.width)
    (hab : a < -(img.width : Int) ∨ (img.width : Int) ≤ a ∨
           b < -(img.height : Int) ∨ (img.height : Int) ≤ b) :
    ∃ e, getpixel img (a, b) = .error e := by
  by_cases ha : (img.width : Int) ≤ a
  · have hv : validatePixelPos img.width img.height a b = .error .indexError := by
      rw [validatePixelPos, if_pos (by omega)]
    exact ⟨.indexError, by rw [getpixel]; simp only [hv]⟩
  · by_cases hb : (img.height : Int) ≤ b
    · have hv : validatePixelPos img.width img.height a b = .error .indexError := by
        rw [validatePixelPos, if_neg (by omega), if_pos (by omega)]
      exact ⟨.indexError, by rw [getpixel]; simp only [hv]⟩
    · have hv : validatePixelPos img.width img.height a b = .ok (a, b) := by
        rw [validatePixelPos, if_neg (by omega), if_neg (by omega)]
      by_cases hbl : b < -(img.height : Int)
      · have hrow : pyIndex img.scanpixels b = none :=
          pyIndex_none _ _ (Or.inl (by rw [hrows]; omega))
        exact ⟨.indexError, by rw [getpixel]; simp only [hv, hrow]⟩
      · have hal : a < -(img.width : Int) := by omega
        cases hr : pyIndex img.scanpixels b with
        | none => exact ⟨.indexError, by rw [getpixel]; simp only [hv, hr]⟩
        | some row =>
          have hrl : row.length = img.width := hcols row (pyIndex_mem _ _ _ hr)
          have hpix : pyIndex row a = none :=
            pyIndex_none _ _ (Or.inl (by rw [hrl]; omega))
          exact ⟨.indexError, by rw [getpixel]; simp only [hv, hr, hpix]⟩

/-- C9 (amended): on a decoded image whose scanline grid matches the IHDR
dimensions, `__validate_pixel_pos` checks only `x >= width` and
`y >= height`, so a negative coordinate with `-w ≤ x < 0` and `-h ≤ y < 0`
passes validation, raises no error in the pixel fetch, and `getpixel`
returns the same result as for the coordinate `(w + x, h + y)` (Python
indexing from the end); coordinates outside `[-w, w) × [-h, h)` — not only
those with `x ≥ w` or `y ≥ h` — raise an out-of-range error. -/
theorem getpixel_negative_wraps (img : DecodedImage) (x y : Int)
    (hrows : img.scanpixels.length = img.height)
    (hcols : ∀ row ∈ img.scanpixels, row.length = img.width)
    (hx1 : -(img.width : Int) ≤ x) (hx2 : x < 0)
    (hy1 : -(img.height : Int) ≤ y) (hy2 : y < 0) :
    validatePixelPos img.width img.height x y = .ok (x, y) ∧
    getpixel img (x, y) = getpixel img ((img.width : Int) + x, (img.height : Int) + y) ∧
    (∃ row p, pyIndex img.scanpixels y = some row ∧ pyIndex row x = some p) ∧
    (∀ a b : Int, (a < -(img.width : Int) ∨ (img.width : Int) ≤ a ∨
        b < -(img.height : Int) ∨ (img.height : Int) ≤ b) →
      ∃ e, getpixel img (a, b) = .error e) := by
  have hval1 : validatePixelPos img.width img.height x y = .ok (x, y) := by
    rw [validatePixelPos, if_neg (by omega), if_neg (by omega)]
  have hval2 : validatePixelPos img.width img.height
      ((img.width : Int) + x) ((img.height : Int) + y)
      = .ok ((img.width : Int) + x, (img.height : Int) + y) := by
    rw [validatePixelPos, if_neg (by omega), if_neg (by omega)]
  have hylen : -((img.scanpixels.length : Int)) ≤ y := by rw [hrows]; exact hy1
  have hrow := pyIndex_neg img.scanpixels y hylen hy2
  obtain ⟨row, hroweq⟩ := hrow.2
  have hrowlen : row.length = img.width := hcols row (pyIndex_mem _ _ _ hroweq)
  have hxlen : -((row.length : Int)) ≤ x := by rw [hrowlen]; exact hx1
  have hpix := pyIndex_neg row x hxlen hx2
  obtain ⟨p, hpixeq⟩ := hpix.2
  have hroweq2 : pyIndex img.scanpixels ((img.height : Int) + y) = some row := by
    have h := hrow.1
    rw [hroweq] at h
    rw [← hrows]
    exact h.symm
  have hpixeq2 : pyIndex row ((img.width : Int) + x) = some p := by
    have h := hpix.1
    rw [hpixeq] at h
    rw [← hrowlen]
    exact h.symm
  refine ⟨hval1, ?_, ⟨row, p, hroweq, hpixeq⟩,
    fun a b hab => getpixel_out_of_window img a b hrows hcols hab⟩
  show getpixel img (x, y) = getpixel img ((img.width : Int) + x, (img.height : Int) + y)
  rw [getpixel, getpixel]
  simp only [hval1, hval2, hroweq, hpixeq, hroweq2, hpixeq2]

/-- C9 witness: on the 2x2 sample image, `(-1, -2)` is accepted and equals
the pixel at `(1, 0)`, and out-of-window coordinates raise. -/
theorem getpixel_negative_wraps_witness :
    validatePixelPos imgSample.width imgSample.height (-1) (-2) = .ok (-1, -2) ∧
    getpixel imgSample (-1, -2)
      = getpixel imgSample ((imgSample.width : Int) + -1, (imgSample.height : Int) + -2) ∧
    (∃ row p, pyIndex imgSample.scanpixels (-2) = some row ∧ pyIndex row (-1) = some p) ∧
    (∀ a b : Int, (a < -(imgSample.width : Int) ∨ (imgSample.width : Int) ≤ a ∨
        b < -(imgSample.height : Int) ∨ (imgSample.height : Int) ≤ b) →
      ∃ e, getpixel imgSample (a, b) = .error e) :=
  getpixel_negative_wraps imgSample (-1) (-2) rfl
    (by intro row hrow; fin_cases hrow <;> rfl)
    (by decide) (by decide) (by decide) (by decide)

/-!  ### The compress/decompress round trip (C10) -/

/-- The window-selection loop returns the least exponent `e' ≥ e` whose
power of two covers the payload length. -/
theorem winExp_spec (n : Nat) :
    ∀ k e, n - 2 ^ e ≤ k →
      n ≤ 2 ^ winExp n e ∧ e ≤ winExp n e ∧
      ∀ j, e ≤ j → n ≤ 2 ^ j → winExp n e ≤ j := by
  intro k
  induction k with
  | zero =>
    intro e he
    have hle : n ≤ 2 ^ e := by omega
    rw [winExp, if_neg (by omega)]
    exact ⟨hle, le_refl e, fun j hj _ => hj⟩
  | succ k ih =>
    intro e he
    by_cases hlt : 2 ^ e < n
    · rw [winExp, if_pos hlt]
      have hpow : 2 ^ e < 2 ^ (e + 1) := by
        have := Nat.pow_lt_pow_right (a := 2) (by omega) (Nat.lt_succ_self e)
        simpa using this
      have hrec := ih (e + 1) (by omega)
      refine ⟨hrec.1, by omega, ?_⟩
      intro j hj hnj
      have hne : e ≠ j := by
        rintro rfl
        omega
      exact hrec.2.2 j (by omega) hnj
    · rw [winExp, if_neg hlt]
      exact ⟨by omega, le_refl e, fun j hj _ => hj⟩

/-- C10: for every byte string `d`, `decompress(compress(d)) == d`, for any
DEFLATE backend satisfying zlib's documented inversion contract
(`zlib.decompress` inverts both `zlib.compress` and a `compressobj` with
any window size 8..15); on the small-payload path (`len(d) ≤ 16384`) the
selected window `2 ** window_size` is the smallest power of two that is at
least `max(len(d), 256)`. -/
theorem compress_decompress_roundtrip
    (deflate : Nat → List Nat → List Nat) (zfull zdec : List Nat → List Nat)
    (hdeflate : ∀ w d, 8 ≤ w → w ≤ 15 → zdec (deflate w d) = d)
    (hzfull : ∀ d, zdec (zfull d) = d) (d : List Nat) :
    decompressModel zdec (compressModel deflate zfull d) = d ∧
    (d.length ≤ 16384 →
      d.length ≤ 2 ^ windowSize d.length ∧ 256 ≤ 2 ^ windowSize d.length ∧
      ∀ j, 8 ≤ j → d.length ≤ 2 ^ j → windowSize d.length ≤ j) := by
  have hspec := winExp_spec d.length (d.length - 2 ^ 8) 8 (le_refl _)
  rw [show winExp d.length 8 = windowSize d.length from rfl] at hspec
  have h8 : 8 ≤ windowSize d.length := hspec.2.1
  have h256 : 256 ≤ 2 ^ windowSize d.length :=
    le_trans (by norm_num) (Nat.pow_le_pow_right (by omega) h8)
  constructor
  · by_cases hsmall : d.length ≤ 16384
    · have h15 : windowSize d.length ≤ 15 := by
        have := hspec.2.2 14 (by omega) (by norm_num; omega)
        omega
      rw [decompressModel, compressModel, if_pos hsmall]
      exact hdeflate _ d h8 h15
    · rw [decompressModel, compressModel, if_neg hsmall]
      exact hzfull d
  · intro _
    exact ⟨hspec.1, h256, fun j hj hnj => hspec.2.2 j hj hnj⟩

/-- C10 witness: instantiating the backend contract with the identity
functions, the round trip and the window bounds hold at `d = [1, 2, 3]`. -/
theorem compress_decompress_roundtrip_witness :
    decompressModel (fun d => d) (compressModel (fun _ d => d) (fun d => d) [1, 2, 3]) = [1, 2, 3] ∧
    (([1, 2, 3] : List Nat).length ≤ 16384 →
      ([1, 2, 3] : List Nat).length ≤ 2 ^ windowSize ([1, 2, 3] : List Nat).length ∧
      256 ≤ 2 ^ windowSize ([1, 2, 3] : List Nat).length ∧
      ∀ j, 8 ≤ j → ([1, 2, 3] : List Nat).length ≤ 2 ^ j →
        windowSize ([1, 2, 3] : List Nat).length ≤ j) :=
  compress_decompress_roundtrip (fun _ d => d) (fun d => d) (fun d => d)
    (fun _ _ _ _ => rfl) (fun _ => rfl) [1, 2, 3]

/-!  ### The `imagedata` setter (C6, amended) -/

/-- `packU32` always yields four bytes. -/
theorem packU32_length (n : Nat) : (packU32 n).length = 4 := rfl

/-- A chunk of at least 12 bytes has a full four-byte type field. -/
theorem typeBytes_length (c : PngChunk) (hlen : 12 ≤ c.bytes.length) :
    c.typeBytes.length = 4 := by
  simp only [PngChunk.typeBytes, List.length_take, List.length_drop]
  omega

/-- Type view of a chunk laid out as `header ++ type ++ data ++ crc`. -/
theorem shape_typeBytes (n : Nat) (T d t4 : List Nat) (e a dt : Bool)
    (hT : T.length = 4) (_ht4 : t4.length = 4) :
    (PngChunk.mk (packU32 n ++ (T ++ (d ++ t4))) e a dt).typeBytes = T := by
  show ((packU32 n ++ (T ++ (d ++ t4))).drop 4).take 4 = T
  rw [List.drop_left' (packU32_length n), List.take_left' hT]

/-- Data view of a chunk laid out as `header ++ type ++ data ++ crc`. -/
theorem shape_data (n : Nat) (T d t4 : List Nat) (e a dt : Bool)
    (hT : T.length = 4) (ht4 : t4.length = 4) :
    (PngChunk.mk (packU32 n ++ (T ++ (d ++ t4))) e a dt).data = d := by
  show ((packU32 n ++ (T ++ (d ++ t4))).drop 8).take
      ((packU32 n ++ (T ++ (d ++ t4))).length - 12) = d
  have hlen : (packU32 n ++ (T ++ (d ++ t4))).length = d.length + 12 := by
    simp [packU32_length, hT, ht4]
    omega
  have hdrop : (packU32 n ++ (T ++ (d ++ t4))).drop 8 = d ++ t4 := by
    rw [← List.append_assoc]
    exact List.drop_left' (by simp [packU32_length, hT])
  rw [hdrop, hlen]
  simp

/-- `PngChunk.data = d` on an editable well-formed chunk succeeds and
rebuilds the bytes as `pack(len(d)) ++ type ++ d ++ crc`, whatever the
`auto_update` flag says the trailing four bytes should be. -/
theorem setData_ok (c : PngChunk) (d : List Nat)
    (hedit : c.edit = true) (hlen : 12 ≤ c.bytes.length) :
    ∃ t4, t4.length = 4 ∧
      c.setData d = .ok (PngChunk.mk (packU32 d.length ++ (c.typeBytes ++ (d ++ t4)))
        c.edit c.autoUpdate true) := by
  have hch : c.changing false = .ok { c with dirty := true } := by
    simp [PngChunk.changing, hedit]
  have htake8 : (c.bytes.take 8).length = 8 := by
    rw [List.length_take]; omega
  have hlast4 : (c.bytes.drop (c.bytes.length - 4)).length = 4 := by
    rw [List.length_drop]; omega
  have hB : (c.bytes.take 8 ++ d ++ c.bytes.drop (c.bytes.length - 4)).length
      = d.length + 12 := by
    simp only [List.length_append, htake8, hlast4]
    omega
  have hdrop4 : (c.bytes.take 8 ++ d ++ c.bytes.drop (c.bytes.length - 4)).drop 4
      = c.typeBytes ++ (d ++ c.bytes.drop (c.bytes.length - 4)) := by
    rw [List.append_assoc, List.drop_append_of_le_length (by omega), List.drop_take]
    rfl
  have h2 : PngChunk.updateLength
      ⟨c.bytes.take 8 ++ d ++ c.bytes.drop (c.bytes.length - 4), c.edit, c.autoUpdate, true⟩
      = .ok ⟨packU32 d.length ++ (c.typeBytes ++ (d ++ c.bytes.drop (c.bytes.length - 4))),
          c.edit, c.autoUpdate, true⟩ := by
    rw [PngChunk.updateLength]
    simp only
    rw [if_neg (by rw [hB]; omega)]
    rw [hB, hdrop4]
    simp
  have htypelen := typeBytes_length c hlen
  by_cases hau : c.autoUpdate = true
  · -- auto CRC update: the last four bytes become the packed recomputed CRC
    have hfront : (packU32 d.length ++ (c.typeBytes ++ (d ++ c.bytes.drop (c.bytes.length - 4)))).take
        ((packU32 d.length ++ (c.typeBytes ++ (d ++ c.bytes.drop (c.bytes.length - 4)))).length - 4)
        = packU32 d.length ++ (c.typeBytes ++ d) := by
      have hassoc : packU32 d.length ++ (c.typeBytes ++ (d ++ c.bytes.drop (c.bytes.length - 4)))
          = (packU32 d.length ++ (c.typeBytes ++ d)) ++ c.bytes.drop (c.bytes.length - 4) := by
        simp [List.append_assoc]
      rw [hassoc]
      have hfl : (packU32 d.length ++ (c.typeBytes ++ d)).length = d.length + 8 := by
        simp [packU32_length, htypelen]
        omega
      have hflen : ((packU32 d.length ++ (c.typeBytes ++ d)) ++ c.bytes.drop (c.bytes.length - 4)).length - 4
          = (packU32 d.length ++ (c.typeBytes ++ d)).length := by
        simp only [List.length_append, hfl, hlast4]
        omega
      rw [hflen, List.take_left]
    refine ⟨packU32 (PngChunk.computeCrc ⟨packU32 d.length ++ (c.typeBytes ++ (d ++ c.bytes.drop (c.bytes.length - 4))), c.edit, c.autoUpdate, true⟩), rfl, ?_⟩
    show (do
      let c1 ← c.changing false
      let c2 := { c1 with bytes := c1.bytes.take 8 ++ d ++ c1.bytes.drop (c1.bytes.length - 4) }
      let c3 ← c2.updateLength
      c3.changing c3.autoUpdate) = _
    rw [hch]
    show (do
      let c3 ← PngChunk.updateLength ⟨c.bytes.take 8 ++ d ++ c.bytes.drop (c.bytes.length - 4), c.edit, c.autoUpdate, true⟩
      c3.changing c3.autoUpdate) = _
    rw [h2]
    show PngChunk.changing _ c.autoUpdate = _
    rw [PngChunk.changing]
    simp only [hedit, Bool.not_true, Bool.false_eq_true, if_false, hau, if_true]
    rw [PngChunk.updateCrc, PngChunk.setCrc]
    simp only [hedit, Bool.not_true, Bool.false_eq_true, if_false]
    simp only [PngChunk.writeCrcBytes, Except.map]
    rw [hfront]
    simp [List.append_assoc]
  · have hau' : c.autoUpdate = false := by
      cases h : c.autoUpdate
      · rfl
      · exact absurd h hau
    refine ⟨c.bytes.drop (c.bytes.length - 4), hlast4, ?_⟩
    show (do
      let c1 ← c.changing false
      let c2 := { c1 with bytes := c1.bytes.take 8 ++ d ++ c1.bytes.drop (c1.bytes.length - 4) }
      let c3 ← c2.updateLength
      c3.changing c3.autoUpdate) = _
    rw [hch]
    show (do
      let c3 ← PngChunk.updateLength ⟨c.bytes.take 8 ++ d ++ c.bytes.drop (c.bytes.length - 4), c.edit, c.autoUpdate, true⟩
      c3.changing c3.autoUpdate) = _
    rw [h2]
    show PngChunk.changing _ c.autoUpdate = _
    rw [PngChunk.changing]
    simp only [hedit, Bool.not_true, Bool.false_eq_true, if_false, hau', if_true]



/-- The refill loop of the `imagedata` setter succeeds on editable
well-formed chunks, preserves the chunk types in order, rewrites the IDAT
payloads to consecutive slices of the compressed stream, consumes exactly
the existing IDAT capacity, and returns in `J` either the inherited `j`
(when no chunk is an IDAT) or the absolute index of the last IDAT. -/
theorem refillIdats_spec :
    ∀ (cs : List PngChunk) (cd : List Nat) (i j : Nat),
      (∀ c ∈ cs, c.edit = true) → (∀ c ∈ cs, 12 ≤ c.bytes.length) →
      ∃ cs' J,
        refillIdats cs cd i j = .ok (cs', cd.drop (idatLens cs).sum, J) ∧
        cs'.map PngChunk.typeBytes = cs.map PngChunk.typeBytes ∧
        (cs'.filter (fun c => c.typeBytes = idatType)).map PngChunk.data
          = segTakes (idatLens cs) cd ∧
        (((∀ c ∈ cs', ¬ c.typeBytes = idatType) ∧ J = j) ∨
         (i ≤ J ∧ J - i < cs'.length ∧
          ∀ c ∈ cs'.drop (J - i + 1), ¬ c.typeBytes = idatType)) := by
  intro cs
  induction cs with
  | nil =>
    intro cd i j _ _
    refine ⟨[], j, ?_, rfl, ?_, Or.inl ⟨fun c hc => absurd hc (List.not_mem_nil c), rfl⟩⟩
    · simp [refillIdats, idatLens]
    · simp [idatLens, segTakes]
  | cons c rest ih =>
    intro cd i j hedit hlen
    have hce : c.edit = true := hedit c (List.mem_cons_self c rest)
    have hcl : 12 ≤ c.bytes.length := hlen c (List.mem_cons_self c rest)
    have hedit' : ∀ x ∈ rest, x.edit = true :=
      fun x hx => hedit x (List.mem_cons_of_mem c hx)
    have hlen' : ∀ x ∈ rest, 12 ≤ x.bytes.length :=
      fun x hx => hlen x (List.mem_cons_of_mem c hx)
    have htypelen := typeBytes_length c hcl
    by_cases hc : c.typeBytes = idatType
    · obtain ⟨t4, ht4, hsd⟩ := setData_ok c (cd.take c.data.length) hce hcl
      obtain ⟨rest', J, hrec, hty, hdat, hQ⟩ := ih (cd.drop c.data.length) (i + 1) i hedit' hlen'
      have hlens : idatLens (c :: rest) = c.data.length :: idatLens rest := by
        simp [idatLens, hc]
      have hdropsum : (cd.drop c.data.length).drop (idatLens rest).sum
          = cd.drop (idatLens (c :: rest)).sum := by
        rw [hlens, List.drop_drop]
        congr 1
      have hnewty : (PngChunk.mk (packU32 (cd.take c.data.length).length ++
          (c.typeBytes ++ (cd.take c.data.length ++ t4))) c.edit c.autoUpdate true).typeBytes
          = c.typeBytes := shape_typeBytes _ _ _ _ _ _ _ htypelen ht4
      have hnewdata : (PngChunk.mk (packU32 (cd.take c.data.length).length ++
          (c.typeBytes ++ (cd.take c.data.length ++ t4))) c.edit c.autoUpdate true).data
          = cd.take c.data.length := shape_data _ _ _ _ _ _ _ htypelen ht4
      refine ⟨(PngChunk.mk (packU32 (cd.take c.data.length).length ++
          (c.typeBytes ++ (cd.take c.data.length ++ t4))) c.edit c.autoUpdate true) :: rest',
        J, ?_, ?_, ?_, ?_⟩
      · rw [refillIdats, if_pos hc]
        simp only [hsd, hrec, hdropsum]
        rfl
      · simp only [List.map_cons, hty, hnewty]
      · rw [List.filter_cons]
        have hdec : (decide ((PngChunk.mk (packU32 (cd.take c.data.length).length ++
            (c.typeBytes ++ (cd.take c.data.length ++ t4))) c.edit c.autoUpdate true).typeBytes
            = idatType)) = true := by
          rw [hnewty]
          simp [hc]
        rw [hdec, if_pos rfl, List.map_cons, hnewdata, hdat, hlens, segTakes]
      · rcases hQ with ⟨hno, hJ⟩ | ⟨h1, h2, h3⟩
        · refine Or.inr ⟨by omega, by simp; omega, ?_⟩
          have h0 : J - i + 1 = 1 := by omega
          rw [h0]
          simpa using hno
        · refine Or.inr ⟨by omega, by simp; omega, ?_⟩
          have : J - i + 1 = (J - (i + 1) + 1) + 1 := by omega
          rw [this, List.drop_succ_cons]
          exact h3
    · obtain ⟨rest', J, hrec, hty, hdat, hQ⟩ := ih cd (i + 1) j hedit' hlen'
      have hlens : idatLens (c :: rest) = idatLens rest := by
        simp [idatLens, hc]
      refine ⟨c :: rest', J, ?_, ?_, ?_, ?_⟩
      · rw [refillIdats, if_neg hc]
        simp only [hrec, hlens]
        rfl
      · simp only [List.map_cons, hty]
      · rw [List.filter_cons]
        have hdec : (decide (c.typeBytes = idatType)) = false := by
          simp [hc]
        rw [hdec]
        simp only [Bool.false_eq_true, if_false]
        rw [hdat, hlens]
      · rcases hQ with ⟨hno, hJ⟩ | ⟨h1, h2, h3⟩
        · exact Or.inl ⟨by
            intro x hx
            rcases List.mem_cons.mp hx with rfl | hx
            · exact hc
            · exact hno x hx, hJ⟩
        · refine Or.inr ⟨by omega, by simp; omega, ?_⟩
          have : J - i + 1 = (J - (i + 1) + 1) + 1 := by omega
          rw [this, List.drop_succ_cons]
          exact h3



/-- The claimed refill layout, re-expressed over payload lengths. -/
theorem refillSpec_eq (ds : List (List Nat)) :
    ∀ cd, refillSpec ds cd
      = segTakes (ds.map List.length) cd ++ [cd.drop ((ds.map List.length).sum)] := by
  induction ds with
  | nil => intro cd; simp [refillSpec, segTakes]
  | cons d ds ih =>
    intro cd
    rw [refillSpec, List.map_cons, segTakes, ih (cd.drop d.length)]
    simp [List.drop_drop, Nat.add_comm]

/-- When the stream covers the requested lengths, each slice is full. -/
theorem segTakes_len : ∀ (ls : List Nat) (cd : List Nat), ls.sum ≤ cd.length →
    (segTakes ls cd).map List.length = ls := by
  intro ls
  induction ls with
  | nil => intro cd _; rfl
  | cons l ls ih =>
    intro cd hsum
    rw [segTakes, List.map_cons, List.length_take]
    have h1 : min l cd.length = l := by
      simp only [List.sum_cons] at hsum
      omega
    rw [h1, ih (cd.drop l) (by simp only [List.sum_cons] at hsum; rw [List.length_drop]; omega)]



/-- C6 (amended): `png.imagedata = d`, modelled from the `compress(data)`
call onwards, refills each pre-existing IDAT chunk in order with the next
segment of the compressed stream of that chunk's previous data length and
always inserts one fresh IDAT chunk holding the remainder (possibly empty)
immediately after the last pre-existing IDAT; consequently the
caller-visible IDAT chunk count always grows by exactly one, and the
individual sizes of the pre-existing IDATs are preserved exactly when the
compressed stream is at least as long as their total capacity. -/
theorem setImagedata_spec (p : Png) (cd : List Nat)
    (hedit : ∀ c ∈ p.chunks, c.edit = true)
    (hlen : ∀ c ∈ p.chunks, 12 ≤ c.bytes.length) :
    ∃ p', setImagedata p cd = .ok p' ∧
      countIdat p' = countIdat p + 1 ∧
      idatDatas p' = refillSpec (idatDatas p) cd ∧
      (((idatDatas p).map List.length).sum ≤ cd.length →
        (idatDatas p').map List.length
          = (idatDatas p).map List.length
            ++ [cd.length - ((idatDatas p).map List.length).sum]) := by
  obtain ⟨cs', J, hloop, hty, hdat, hQ⟩ := refillIdats_spec p.chunks cd 0 0 hedit hlen
  have hec : createEmptyIdat
      = .ok (PngChunk.mk [0, 0, 0, 0, 73, 68, 65, 84, 53, 175, 6, 30] true true true) := rfl
  obtain ⟨t4, ht4, hsd⟩ := setData_ok
    (PngChunk.mk [0, 0, 0, 0, 73, 68, 65, 84, 53, 175, 6, 30] true true true)
    (cd.drop (idatLens p.chunks).sum) rfl (by norm_num)
  have htyec : (PngChunk.mk [0, 0, 0, 0, 73, 68, 65, 84, 53, 175, 6, 30] true true true).typeBytes
      = idatType := rfl
  rw [htyec] at hsd
  have hnewty : (PngChunk.mk (packU32 (cd.drop (idatLens p.chunks).sum).length ++
      (idatType ++ (cd.drop (idatLens p.chunks).sum ++ t4))) true true true).typeBytes
      = idatType := shape_typeBytes _ _ _ _ _ _ _ rfl ht4
  have hnewdata : (PngChunk.mk (packU32 (cd.drop (idatLens p.chunks).sum).length ++
      (idatType ++ (cd.drop (idatLens p.chunks).sum ++ t4))) true true true).data
      = cd.drop (idatLens p.chunks).sum := shape_data _ _ _ _ _ _ _ rfl ht4
  have hdropnil : ∀ x ∈ cs'.drop (J + 1), ¬ x.typeBytes = idatType := by
    rcases hQ with ⟨hno, -⟩ | ⟨-, -, h3⟩
    · exact fun x hx => hno x (List.mem_of_mem_drop hx)
    · simpa using h3
  have hfnew : [PngChunk.mk (packU32 (cd.drop (idatLens p.chunks).sum).length ++
      (idatType ++ (cd.drop (idatLens p.chunks).sum ++ t4))) true true true].filter
        (fun c => c.typeBytes = idatType)
      = [PngChunk.mk (packU32 (cd.drop (idatLens p.chunks).sum).length ++
      (idatType ++ (cd.drop (idatLens p.chunks).sum ++ t4))) true true true] := by
    rw [List.filter_cons, hnewty]
    simp
  have hfdrop : (cs'.drop (J + 1)).filter (fun c => c.typeBytes = idatType) = [] :=
    List.filter_eq_nil_iff.mpr (fun x hx => by simp [hdropnil x hx])
  have hfins : (pyInsert (J + 1) (PngChunk.mk (packU32 (cd.drop (idatLens p.chunks).sum).length ++
      (idatType ++ (cd.drop (idatLens p.chunks).sum ++ t4))) true true true) cs').filter
        (fun c => c.typeBytes = idatType)
      = cs'.filter (fun c => c.typeBytes = idatType)
        ++ [PngChunk.mk (packU32 (cd.drop (idatLens p.chunks).sum).length ++
          (idatType ++ (cd.drop (idatLens p.chunks).sum ++ t4))) true true true] := by
    rw [pyInsert, List.filter_append, List.filter_append, hfnew, hfdrop]
    conv_rhs => rw [← List.take_append_drop (J + 1) cs', List.filter_append, hfdrop]
    simp
  have hlenseq : (idatDatas p).map List.length = idatLens p.chunks := by
    simp only [idatDatas, idatLens, List.map_map]
    rfl
  have hlenseq2 := hlenseq
  simp only [idatDatas] at hlenseq2
  have hcnt : (cs'.filter (fun c => c.typeBytes = idatType)).length
      = (p.chunks.filter (fun c => c.typeBytes = idatType)).length := by
    have h1 := List.countP_map (p := fun tb => decide (tb = idatType)) (f := PngChunk.typeBytes) (l := cs')
    have h2 := List.countP_map (p := fun tb => decide (tb = idatType)) (f := PngChunk.typeBytes) (l := p.chunks)
    rw [← List.countP_eq_length_filter, ← List.countP_eq_length_filter]
    have h3 := congrArg (List.countP (fun tb => decide (tb = idatType))) hty
    rw [h1, h2] at h3
    exact h3
  refine ⟨{ p with chunks := (pyInsert (J + 1)
      (PngChunk.mk (packU32 (cd.drop (idatLens p.chunks).sum).length ++
        (idatType ++ (cd.drop (idatLens p.chunks).sum ++ t4))) true true true) cs') }, ?_, ?_, ?_, ?_⟩
  · rw [setImagedata]
    simp only [hloop, hec]
    show (do
      let c ← (PngChunk.mk [0, 0, 0, 0, 73, 68, 65, 84, 53, 175, 6, 30] true true true).setData
        (cd.drop (idatLens p.chunks).sum)
      Except.ok { p with chunks := pyInsert (J + 1) c cs' }) = _
    rw [hsd]
    rfl
  · show countIdat _ = countIdat p + 1
    simp only [countIdat, List.countP_eq_length_filter]
    rw [hfins]
    simp [hcnt]
  · show idatDatas _ = refillSpec (idatDatas p) cd
    simp only [idatDatas]
    rw [hfins, List.map_append, hdat, refillSpec_eq, hlenseq2]
    simp only [List.map_cons, List.map_nil]
    rw [hnewdata]
  · intro hsum
    rw [hlenseq] at hsum
    simp only [idatDatas]
    rw [hfins, List.map_append, List.map_append, hdat, segTakes_len _ _ hsum, hlenseq2]
    simp only [List.map_cons, List.map_nil, List.append_cancel_left_eq, List.cons.injEq, and_true]
    rw [hnewdata, List.length_drop]



/-- C6 witness: on the single-IDAT sample container and a four-byte
compressed stream, the refill layout, count increment and preserved sizes
all hold. -/
theorem setImagedata_spec_witness :
    ∃ p', setImagedata pngSample [5, 6, 7, 8] = .ok p' ∧
      countIdat p' = countIdat pngSample + 1 ∧
      idatDatas p' = refillSpec (idatDatas pngSample) [5, 6, 7, 8] ∧
      (((idatDatas pngSample).map List.length).sum ≤ ([5, 6, 7, 8] : List Nat).length →
        (idatDatas p').map List.length
          = (idatDatas pngSample).map List.length
            ++ [([5, 6, 7, 8] : List Nat).length
                - ((idatDatas pngSample).map List.length).sum]) :=
  setImagedata_spec pngSample [5, 6, 7, 8] (by decide) (by decide)

end StegPng
